import Mathlib

set_option autoImplicit false
set_option linter.unusedSectionVars false

/-!
Verification development for the `lru-cache` repository.

The core under `src/lru_cache.py` is a single LRU shard: a hash index
(`_cache : Dict[K, Node]`) plus a doubly linked recency list with sentinel
head/tail nodes.  We embed it shallowly:

* the hash index becomes an association list `cache : List (Node K V)`,
  looked up by the `key` field (Python dicts hold at most one binding per
  key; the embedding's operations only ever bind a key once);
* the doubly linked recency list between the sentinels becomes the
  sequence of the keys of its nodes, `order : List K`, most recently used
  first (the node right after `_head` is the list head);
* the monotonic clock becomes an explicit `now : Int` argument threaded
  through every operation, and `created_at` is an `Int` timestamp;
* mutation becomes explicit state passing: each operation returns the new
  `LRUCache` value.

The sharded facade, the router and the hit/miss statistics that the spec
(and the repository's own test-suite) describe are not present under
`src/`; those parts are modelled from the spec further below and are
marked as such.
-/

/-- Embeds the Python class `Node` of `src/lru_cache.py`: key, value and the
creation/refresh timestamp.  The `prev`/`next` pointers of the Python node
are represented by the node's position in the `order` list of `LRUCache`
instead of by fields. -/
structure Node (K V : Type) where
  key : K
  value : V
  created_at : Int
deriving DecidableEq, Repr

/-- Embeds the Python class `LRUCache` of `src/lru_cache.py` (one shard):
`capacity` (validated positive at construction, hence a `Nat`),
`ttl_seconds` (`None` becomes `none`), the hash index `cache` and the
recency list `order` (keys of the linked nodes, most recently used first). -/
structure LRUCache (K V : Type) where
  capacity : Nat
  ttl_seconds : Option Int
  cache : List (Node K V)
  order : List K
deriving DecidableEq, Repr

variable {K V : Type} [DecidableEq K]

/-- Embeds `self._cache.get(key)`: first (and, as in a dict, only) node
bound to `k` in the index. -/
def find_node (k : K) : List (Node K V) → Option (Node K V)
  | [] => none
  | n :: rest => if n.key = k then some n else find_node k rest

/-- Embeds `del self._cache[key]`: drop the binding of `k` from the index. -/
def erase_key (k : K) : List (Node K V) → List (Node K V)
  | [] => []
  | n :: rest => if n.key = k then rest else n :: erase_key k rest

/-- Embeds the in-place node mutation `node.value = value;
node.created_at = time.monotonic()` performed by `put` on an existing key. -/
def update_node (k : K) (v : V) (now : Int) : List (Node K V) → List (Node K V)
  | [] => []
  | n :: rest =>
    if n.key = k then { n with value := v, created_at := now } :: rest
    else n :: update_node k v now rest

namespace LRUCache

/-- Embeds `LRUCache._is_expired`: `False` when TTL is disabled, otherwise
`(now - node.created_at) > ttl`. -/
def is_expired (c : LRUCache K V) (now : Int) (n : Node K V) : Bool :=
  match c.ttl_seconds with
  | none => false
  | some t => decide (now - n.created_at > t)

end LRUCache

/-- Embeds `LRUCache._remove_node` acting on the recency list: splice the
node with key `k` out of the list. -/
def remove_node (k : K) (order : List K) : List K :=
  order.erase k

/-- Embeds `LRUCache._add_node_to_front`: insert right after the head
sentinel. -/
def add_node_to_front (k : K) (order : List K) : List K :=
  k :: order

/-- Embeds `LRUCache._move_to_front`: `_remove_node` then
`_add_node_to_front`. -/
def move_to_front (k : K) (order : List K) : List K :=
  add_node_to_front k (remove_node k order)

/-- Embeds `LRUCache._pop_tail`: remove and return the node right before
the tail sentinel (`none` and the unchanged list when the list is
logically empty). -/
def pop_tail (order : List K) : Option K × List K :=
  match order.getLast? with
  | none => (none, order)
  | some k => (some k, order.dropLast)

namespace LRUCache

/-- Embeds `LRUCache.get`.  Absent key: miss, no state change.  Expired
node: removed from list and index, miss.  Live node: moved to the front,
its value returned. -/
def get (c : LRUCache K V) (now : Int) (k : K) : Option V × LRUCache K V :=
  match find_node k c.cache with
  | none => (none, c)
  | some n =>
    if c.is_expired now n then
      (none, { c with cache := erase_key k c.cache, order := remove_node k c.order })
    else
      (some n.value, { c with order := move_to_front k c.order })

/-- Embeds `LRUCache.put`.  Existing key: update value and timestamp in
place and move to the front.  New key: insert at the front of index and
list; if the index now exceeds capacity, pop the tail node and delete its
key from the index. -/
def put (c : LRUCache K V) (now : Int) (k : K) (v : V) : LRUCache K V :=
  match find_node k c.cache with
  | some _ =>
    { c with cache := update_node k v now c.cache, order := move_to_front k c.order }
  | none =>
    let c1 : LRUCache K V :=
      { c with cache := Node.mk k v now :: c.cache, order := add_node_to_front k c.order }
    if c1.cache.length > c.capacity then
      match pop_tail c1.order with
      | (none, _) => c1
      | (some j, ord) => { c1 with cache := erase_key j c1.cache, order := ord }
    else c1

/-- Embeds `LRUCache.__len__`: index size when TTL is disabled, otherwise
the number of unexpired nodes (no eviction side effect). -/
def len (c : LRUCache K V) (now : Int) : Nat :=
  match c.ttl_seconds with
  | none => c.cache.length
  | some _ => (c.cache.filter (fun n => ! c.is_expired now n)).length

/-- Embeds `LRUCache.__contains__`: true iff the key is present and not
expired.  The Python body performs no mutation, so the returned state is
the input state. -/
def contains (c : LRUCache K V) (now : Int) (k : K) : Bool × LRUCache K V :=
  match find_node k c.cache with
  | none => (false, c)
  | some n => (! c.is_expired now n, c)

/-- Embeds `LRUCache.clear`: empty the index and relink the sentinels to
one another (empty recency list). -/
def clear (c : LRUCache K V) : LRUCache K V :=
  { c with cache := [], order := [] }

/-- The state of a freshly constructed `LRUCache` (after the validation in
`__init__` has passed): empty index, empty recency list. -/
def empty (capacity : Nat) (ttl_seconds : Option Int) : LRUCache K V :=
  { capacity := capacity, ttl_seconds := ttl_seconds, cache := [], order := [] }

end LRUCache

/-- Applies a sequence of `put` calls (each with its own clock reading) to
a cache state, in order. -/
def run_puts : List (Int × K × V) → LRUCache K V → LRUCache K V
  | [], c => c
  | (now, k, v) :: rest, c => run_puts rest (c.put now k v)

/-- The index/recency-list bijection of the spec, on the embedding: the
recency list holds no key twice, and the multiset of indexed keys is
exactly the multiset of keys on the recency list. -/
def LRUCache.Wf (c : LRUCache K V) : Prop :=
  c.order.Nodup ∧ (c.cache.map Node.key).Perm c.order

instance (c : LRUCache K V) : Decidable c.Wf :=
  inferInstanceAs (Decidable (_ ∧ _))

/-!
### The sharded facade, modelled from the spec

The repository's own test-suite and benchmark construct `LRUCache` with a
`num_shards` argument and read `hits`, `misses` and `get_shard_metrics()`,
but the file under `src/` implements only the single shard above: the
sharding facade, the router and the statistics counters are code of this
repository missing from `src/`.  The definitions below model that missing
part from the spec (§2-§4.4, §3 "Global capacity distribution",
"Statistics") and are marked accordingly.
-/

/-- Modelled from the spec: the per-shard `hits`/`misses` statistics
counters (absent from `src/lru_cache.py`), kept next to the shard state and
"monotonically increasing ..., reset only by `clear`". -/
structure StatShard (K V : Type) where
  shard : LRUCache K V
  hits : Nat
  misses : Nat
deriving DecidableEq, Repr

namespace StatShard

/-- Modelled from the spec: "a `get` that finds a live, unexpired entry
increments hits; a `get` that finds nothing or finds an expired entry
increments misses", on top of the shard `get` embedded from the source. -/
def get (s : StatShard K V) (now : Int) (k : K) : Option V × StatShard K V :=
  let r := s.shard.get now k
  match r.1 with
  | none => (none, { shard := r.2, hits := s.hits, misses := s.misses + 1 })
  | some v => (some v, { shard := r.2, hits := s.hits + 1, misses := s.misses })

/-- Modelled from the spec: `put` "does not affect hit/miss counters (put
is not a lookup)". -/
def put (s : StatShard K V) (now : Int) (k : K) (v : V) : StatShard K V :=
  { s with shard := s.shard.put now k v }

/-- Modelled from the spec: `contains` "does not affect statistics". -/
def contains (s : StatShard K V) (now : Int) (k : K) : Bool × StatShard K V :=
  ((s.shard.contains now k).1, { s with shard := (s.shard.contains now k).2 })

/-- Modelled from the spec: `len` is a read-only count. -/
def len (s : StatShard K V) (now : Int) : Nat :=
  s.shard.len now

/-- Modelled from the spec: `clear()` "empties index and recency list,
resets hits and misses to zero". -/
def clear (s : StatShard K V) : StatShard K V :=
  { shard := s.shard.clear, hits := 0, misses := 0 }

end StatShard

/-- Modelled from the spec: the capacity a given shard index receives —
"each shard receives `floor(capacity / num_shards)`, and the first
`capacity mod num_shards` shards receive one extra unit; every shard
capacity is floored at a minimum of 1". -/
def shard_capacity (capacity num_shards i : Nat) : Nat :=
  max 1 (capacity / num_shards + if i < capacity % num_shards then 1 else 0)

/-- Modelled from the spec: the TTL validity check of construction —
a configured TTL must be non-negative (mirrors the `ttl_seconds < 0`
check of `LRUCache.__init__` in `src/lru_cache.py`). -/
def ttl_invalid : Option Int → Bool
  | none => false
  | some t => decide (t < 0)

/-- Modelled from the spec: the error taxonomy of §7 — the facade
constructor "fails with `InvalidConfiguration`". -/
inductive CacheError where
  | invalidConfiguration (msg : String)
deriving DecidableEq, Repr

/-- Modelled from the spec: the `Cache` facade of §4.4 — configured total
capacity and TTL (as the accessors report them), the router's hash
function, and the ordered collection of shards. -/
structure Cache (K V : Type) where
  capacity : Int
  ttl_seconds : Option Int
  hashf : K → Nat
  shards : List (StatShard K V)

namespace Cache

/-- Modelled from the spec: router §4.3 — "a deterministic hash of the key
reduced modulo the shard count". -/
def shard_index (c : Cache K V) (k : K) : Nat :=
  c.hashf k % c.shards.length

/-- Modelled from the spec: facade construction §4.4 — validate the
configuration (`InvalidConfiguration` iff capacity ≤ 0, ttl < 0 or
num_shards ≤ 0; the capacity/ttl checks mirror `LRUCache.__init__` in
`src/lru_cache.py`), then build `num_shards` empty shards with the
capacities of `shard_capacity`. -/
def init (hashf : K → Nat) (capacity : Int) (ttl_seconds : Option Int)
    (num_shards : Int) : Except CacheError (Cache K V) :=
  if capacity ≤ 0 then
    .error (.invalidConfiguration "Capacity must be a positive integer.")
  else if ttl_invalid ttl_seconds then
    .error (.invalidConfiguration "TTL must be a non-negative number.")
  else if num_shards ≤ 0 then
    .error (.invalidConfiguration "Number of shards must be a positive integer.")
  else
    .ok { capacity := capacity, ttl_seconds := ttl_seconds, hashf := hashf,
          shards := (List.range num_shards.toNat).map fun i =>
            { shard := LRUCache.empty (shard_capacity capacity.toNat num_shards.toNat i)
                         ttl_seconds,
              hits := 0, misses := 0 } }

/-- Modelled from the spec: `num_shards` defaults to 16. -/
def default_num_shards : Int := 16

/-- Modelled from the spec: construction without an explicit `num_shards`
uses the default shard count. -/
def init_default (hashf : K → Nat) (capacity : Int) (ttl_seconds : Option Int) :
    Except CacheError (Cache K V) :=
  init hashf capacity ttl_seconds default_num_shards

/-- Modelled from the spec: facade `get` routes to the owning shard and
delegates; the shard list is updated with that shard's new state. -/
def get (c : Cache K V) (now : Int) (k : K) : Option V × Cache K V :=
  match c.shards[c.shard_index k]? with
  | none => (none, c)
  | some s =>
    let r := s.get now k
    (r.1, { c with shards := c.shards.set (c.shard_index k) r.2 })

/-- Modelled from the spec: facade `put` routes to the owning shard and
delegates. -/
def put (c : Cache K V) (now : Int) (k : K) (v : V) : Cache K V :=
  match c.shards[c.shard_index k]? with
  | none => c
  | some s => { c with shards := c.shards.set (c.shard_index k) (s.put now k v) }

/-- Modelled from the spec: facade `contains` routes and delegates;
the shard's `contains` has no side effect. -/
def contains (c : Cache K V) (now : Int) (k : K) : Bool × Cache K V :=
  match c.shards[c.shard_index k]? with
  | none => (false, c)
  | some s => ((s.contains now k).1, { c with shards := c.shards.set (c.shard_index k) (s.contains now k).2 })

/-- Modelled from the spec: facade `len` sums the shard lengths. -/
def len (c : Cache K V) (now : Int) : Nat :=
  (c.shards.map (fun s => s.len now)).sum

/-- Modelled from the spec: facade `clear` clears every shard in turn. -/
def clear (c : Cache K V) : Cache K V :=
  { c with shards := c.shards.map StatShard.clear }

/-- Modelled from the spec: aggregated hit counter — "sum of the
respective per-shard counters". -/
def hits (c : Cache K V) : Nat :=
  (c.shards.map StatShard.hits).sum

/-- Modelled from the spec: aggregated miss counter. -/
def misses (c : Cache K V) : Nat :=
  (c.shards.map StatShard.misses).sum

end Cache

/-- The cache that a successful `Cache.init (fun n => n) 5 (some 3) 2`
produces, written out: shard 0 receives capacity 3 (one extra unit),
shard 1 receives 2. -/
def sample_ok_cache : Cache Nat Nat :=
  { capacity := 5, ttl_seconds := some 3, hashf := fun n => n,
    shards :=
      [ { shard := LRUCache.empty 3 (some 3), hits := 0, misses := 0 },
        { shard := LRUCache.empty 2 (some 3), hits := 0, misses := 0 } ] }

/-- A small concrete shard state used to instantiate hypothesis-bearing
theorems: capacity 2, TTL 10, two live-at-time-0 entries, key 1 most
recently used. -/
def sample_shard : LRUCache Nat Nat :=
  { capacity := 2, ttl_seconds := some 10,
    cache := [⟨1, 11, 0⟩, ⟨2, 22, 0⟩], order := [1, 2] }

/-- A full capacity-1 shard without TTL, used to exercise the eviction
branch concretely. -/
def full_shard : LRUCache Nat Nat :=
  { capacity := 1, ttl_seconds := none, cache := [⟨5, 50, 0⟩], order := [5] }

/-- A small concrete two-shard facade used to instantiate the facade
theorems: identity routing of `Nat` keys over 2 shards, one entry in each
shard, some prior statistics. -/
def sample_cache : Cache Nat Nat :=
  { capacity := 4, ttl_seconds := some 10, hashf := fun n => n,
    shards :=
      [ { shard := { capacity := 2, ttl_seconds := some 10,
                     cache := [⟨2, 22, 0⟩], order := [2] },
          hits := 3, misses := 1 },
        { shard := { capacity := 2, ttl_seconds := some 10,
                     cache := [⟨1, 11, 0⟩], order := [1] },
          hits := 5, misses := 2 } ] }

/-! ### Basic facts about the index operations -/

theorem find_node_eq_none {k : K} {l : List (Node K V)} :
    find_node k l = none ↔ k ∉ l.map Node.key := by
  induction l with
  | nil => simp [find_node]
  | cons n rest ih =>
    by_cases h : n.key = k
    · simp [find_node, h]
    · have h2 : ¬ k = n.key := fun hc => h hc.symm
      simp [find_node, h, h2, ih]

theorem find_node_some {k : K} {l : List (Node K V)} {n : Node K V}
    (h : find_node k l = some n) : n.key = k ∧ n ∈ l := by
  induction l with
  | nil => simp [find_node] at h
  | cons m rest ih =>
    rw [find_node] at h
    by_cases hm : m.key = k
    · rw [if_pos hm] at h
      cases h
      exact ⟨hm, List.mem_cons_self _ _⟩
    · rw [if_neg hm] at h
      exact ⟨(ih h).1, List.mem_cons_of_mem m (ih h).2⟩

theorem map_key_erase_key (k : K) (l : List (Node K V)) :
    (erase_key k l).map Node.key = (l.map Node.key).erase k := by
  induction l with
  | nil => simp [erase_key]
  | cons n rest ih =>
    by_cases h : n.key = k
    · simp [erase_key, h, List.erase_cons_head]
    · have hb : ¬(n.key == k) = true := by simpa using h
      simp [erase_key, h, List.erase_cons_tail hb, ih]

theorem map_key_update_node (k : K) (v : V) (now : Int) (l : List (Node K V)) :
    (update_node k v now l).map Node.key = l.map Node.key := by
  induction l with
  | nil => rfl
  | cons n rest ih =>
    by_cases h : n.key = k <;> simp [update_node, h, ih]

theorem length_update_node (k : K) (v : V) (now : Int) (l : List (Node K V)) :
    (update_node k v now l).length = l.length := by
  have := congrArg List.length (map_key_update_node k v now l)
  simpa using this

theorem length_erase_key_of_mem {k : K} {l : List (Node K V)}
    (h : k ∈ l.map Node.key) : (erase_key k l).length + 1 = l.length := by
  have h1 : ((l.map Node.key).erase k).length = (l.map Node.key).length - 1 :=
    List.length_erase_of_mem h
  have h2 := congrArg List.length (map_key_erase_key k l)
  have h3 : 1 ≤ (l.map Node.key).length :=
    List.length_pos.mpr (List.ne_nil_of_mem h)
  simp only [List.length_map] at h1 h2 h3 ⊢
  omega

theorem find_node_update_self (k : K) (v : V) (now : Int) (l : List (Node K V)) :
    find_node k (update_node k v now l)
      = (find_node k l).map (fun n => { n with value := v, created_at := now }) := by
  induction l with
  | nil => rfl
  | cons n rest ih =>
    by_cases h : n.key = k <;> simp [update_node, find_node, h, ih]

theorem find_node_update_ne {k2 k : K} (v : V) (now : Int) (l : List (Node K V))
    (h : k2 ≠ k) : find_node k2 (update_node k v now l) = find_node k2 l := by
  induction l with
  | nil => rfl
  | cons n rest ih =>
    by_cases hk : n.key = k
    · have : ¬ n.key = k2 := fun hc => h (hc ▸ hk)
      simp [update_node, find_node, hk, this, h, Ne.symm h]
    · by_cases hk2 : n.key = k2 <;>
        simp [update_node, find_node, hk, hk2, ih, h, Ne.symm h]

theorem find_node_erase_ne {k2 k : K} (l : List (Node K V))
    (h : k2 ≠ k) : find_node k2 (erase_key k l) = find_node k2 l := by
  induction l with
  | nil => rfl
  | cons n rest ih =>
    by_cases hk : n.key = k
    · have : ¬ n.key = k2 := fun hc => h (hc ▸ hk)
      simp [erase_key, find_node, hk, this, h, Ne.symm h]
    · by_cases hk2 : n.key = k2 <;>
        simp [erase_key, find_node, hk, hk2, ih, h, Ne.symm h]

theorem find_node_erase_self {k : K} {l : List (Node K V)}
    (hnd : (l.map Node.key).Nodup) : find_node k (erase_key k l) = none := by
  rw [find_node_eq_none, map_key_erase_key]
  by_cases hk : k ∈ l.map Node.key
  · exact hnd.not_mem_erase
  · exact fun hc => hk (List.mem_of_mem_erase hc)

theorem erase_getLast_of_nodup (l : List K) (h : l ≠ []) (hnd : l.Nodup) :
    l.erase (l.getLast h) = l.dropLast := by
  obtain ⟨a, heq⟩ : ∃ a, l.getLast h = a := ⟨_, rfl⟩
  have hl : l.dropLast ++ [a] = l := by
    rw [← heq]; exact List.dropLast_append_getLast h
  rw [heq]
  have hnd2 : (l.dropLast ++ [a]).Nodup := by rwa [hl]
  have hnm : a ∉ l.dropLast := by
    intro hc
    rcases List.nodup_append.mp hnd2 with ⟨-, -, hdisj⟩
    exact hdisj hc (List.mem_singleton_self _)
  conv_lhs => rw [← hl]
  rw [List.erase_append_right _ hnm, List.erase_cons_head]
  simp

/-! ### Branch characterizations of `get` and `put` -/

theorem get_of_none {c : LRUCache K V} {now : Int} {k : K}
    (h : find_node k c.cache = none) : c.get now k = (none, c) := by
  simp [LRUCache.get, h]

theorem get_of_expired {c : LRUCache K V} {now : Int} {k : K} {n : Node K V}
    (h : find_node k c.cache = some n) (he : c.is_expired now n = true) :
    c.get now k
      = (none, { c with cache := erase_key k c.cache, order := c.order.erase k }) := by
  simp [LRUCache.get, h, he, remove_node]

theorem get_of_live {c : LRUCache K V} {now : Int} {k : K} {n : Node K V}
    (h : find_node k c.cache = some n) (he : c.is_expired now n = false) :
    c.get now k
      = (some n.value, { c with order := k :: c.order.erase k }) := by
  simp [LRUCache.get, h, he, move_to_front, add_node_to_front, remove_node]

theorem put_of_found {c : LRUCache K V} {now : Int} {k : K} {v : V} {n : Node K V}
    (h : find_node k c.cache = some n) :
    c.put now k v
      = { c with cache := update_node k v now c.cache, order := k :: c.order.erase k } := by
  simp [LRUCache.put, h, move_to_front, add_node_to_front, remove_node]

theorem put_of_new_fits {c : LRUCache K V} {now : Int} {k : K} {v : V}
    (h : find_node k c.cache = none) (hle : c.cache.length + 1 ≤ c.capacity) :
    c.put now k v
      = { c with cache := Node.mk k v now :: c.cache, order := k :: c.order } := by
  simp [LRUCache.put, h, add_node_to_front, Nat.not_lt.mpr hle]

theorem put_of_new_evict {c : LRUCache K V} {now : Int} {k : K} {v : V}
    (h : find_node k c.cache = none) (hgt : c.capacity < c.cache.length + 1) :
    c.put now k v
      = { c with
            cache := erase_key ((k :: c.order).getLast (List.cons_ne_nil k c.order))
                       (Node.mk k v now :: c.cache),
            order := (k :: c.order).dropLast } := by
  have hne : (k :: c.order) ≠ [] := List.cons_ne_nil k c.order
  simp [LRUCache.put, h, add_node_to_front, pop_tail,
        List.getLast?_eq_getLast_of_ne_nil hne, hgt]

/-! ### Preservation of the index/recency-list bijection -/

theorem wf_mem_order_of_found {c : LRUCache K V} {k : K} {n : Node K V}
    (hwf : c.Wf) (h : find_node k c.cache = some n) : k ∈ c.order := by
  have hk := (find_node_some h).1
  have hm : k ∈ c.cache.map Node.key := List.mem_map.mpr ⟨n, (find_node_some h).2, hk⟩
  exact hwf.2.mem_iff.mp hm

theorem wf_not_mem_order_of_none {c : LRUCache K V} {k : K}
    (hwf : c.Wf) (h : find_node k c.cache = none) : k ∉ c.order := by
  intro hc
  exact (find_node_eq_none.mp h) (hwf.2.mem_iff.mpr hc)

theorem wf_keys_nodup {c : LRUCache K V} (hwf : c.Wf) : (c.cache.map Node.key).Nodup :=
  hwf.2.symm.nodup_iff.mp hwf.1

theorem wf_put {c : LRUCache K V} (now : Int) (k : K) (v : V) (hwf : c.Wf) :
    (c.put now k v).Wf := by
  obtain ⟨hnd, hperm⟩ := hwf
  cases hfind : find_node k c.cache with
  | some n =>
    rw [put_of_found hfind]
    have hk : k ∈ c.order := wf_mem_order_of_found ⟨hnd, hperm⟩ hfind
    refine ⟨List.nodup_cons.mpr ⟨hnd.not_mem_erase, hnd.erase k⟩, ?_⟩
    show (List.map Node.key (update_node k v now c.cache)).Perm _
    rw [map_key_update_node]
    exact hperm.trans (List.perm_cons_erase hk)
  | none =>
    have hk : k ∉ c.order := wf_not_mem_order_of_none ⟨hnd, hperm⟩ hfind
    have hperm2 : ((Node.mk k v now :: c.cache).map Node.key).Perm (k :: c.order) := by
      simpa using hperm.cons k
    by_cases hcap : c.cache.length + 1 ≤ c.capacity
    · rw [put_of_new_fits hfind hcap]
      exact ⟨List.nodup_cons.mpr ⟨hk, hnd⟩, hperm2⟩
    · push_neg at hcap
      rw [put_of_new_evict hfind hcap]
      have hnd2 : (k :: c.order).Nodup := List.nodup_cons.mpr ⟨hk, hnd⟩
      refine ⟨(List.dropLast_sublist _).nodup hnd2, ?_⟩
      show (List.map Node.key (erase_key _ _)).Perm _
      rw [map_key_erase_key]
      have hp := hperm2.erase ((k :: c.order).getLast (List.cons_ne_nil k c.order))
      rwa [erase_getLast_of_nodup _ (List.cons_ne_nil k c.order) hnd2] at hp

theorem wf_get {c : LRUCache K V} (now : Int) (k : K) (hwf : c.Wf) :
    ((c.get now k).2).Wf := by
  obtain ⟨hnd, hperm⟩ := hwf
  cases hfind : find_node k c.cache with
  | none => rw [get_of_none hfind]; exact ⟨hnd, hperm⟩
  | some n =>
    by_cases hexp : c.is_expired now n = true
    · rw [get_of_expired hfind hexp]
      refine ⟨hnd.erase k, ?_⟩
      show (List.map Node.key (erase_key k c.cache)).Perm _
      rw [map_key_erase_key]
      exact hperm.erase k
    · rw [get_of_live hfind (Bool.not_eq_true _ ▸ hexp)]
      have hk : k ∈ c.order := wf_mem_order_of_found ⟨hnd, hperm⟩ hfind
      exact ⟨List.nodup_cons.mpr ⟨hnd.not_mem_erase, hnd.erase k⟩,
             hperm.trans (List.perm_cons_erase hk)⟩

theorem contains_snd (c : LRUCache K V) (now : Int) (k : K) :
    (c.contains now k).2 = c := by
  cases hfind : find_node k c.cache <;> simp [LRUCache.contains, hfind]

theorem wf_clear (c : LRUCache K V) : c.clear.Wf := by
  exact ⟨List.nodup_nil, by simp [LRUCache.clear]⟩

theorem len_le_length (c : LRUCache K V) (now : Int) :
    c.len now ≤ c.cache.length := by
  cases h : c.ttl_seconds with
  | none => simp [LRUCache.len, h]
  | some t => simpa [LRUCache.len, h] using List.length_filter_le _ c.cache

/-! ### Capacity accounting of `put` -/

theorem put_capacity_ttl (c : LRUCache K V) (now : Int) (k : K) (v : V) :
    (c.put now k v).capacity = c.capacity ∧ (c.put now k v).ttl_seconds = c.ttl_seconds := by
  cases hfind : find_node k c.cache with
  | some n => rw [put_of_found hfind]; exact ⟨rfl, rfl⟩
  | none =>
    by_cases hc : c.cache.length + 1 ≤ c.capacity
    · rw [put_of_new_fits hfind hc]; exact ⟨rfl, rfl⟩
    · push_neg at hc; rw [put_of_new_evict hfind hc]; exact ⟨rfl, rfl⟩

theorem evicted_key_mem (now : Int) (k : K) (v : V) {c : LRUCache K V}
    (hwf : c.Wf) :
    (k :: c.order).getLast (List.cons_ne_nil k c.order)
      ∈ (Node.mk k v now :: c.cache).map Node.key := by
  have hperm2 : ((Node.mk k v now :: c.cache).map Node.key).Perm (k :: c.order) := by
    simpa using hwf.2.cons k
  exact hperm2.mem_iff.mpr (List.getLast_mem _)

theorem put_evict_length {c : LRUCache K V} (now : Int) (k : K) (v : V)
    (hwf : c.Wf) (hfind : find_node k c.cache = none)
    (hgt : c.capacity < c.cache.length + 1) :
    (c.put now k v).cache.length = c.cache.length
      ∧ ∀ h : c.order ≠ [],
          find_node (c.order.getLast h) (c.put now k v).cache = none := by
  have hmem := evicted_key_mem now k v hwf
  have hnd2 : ((Node.mk k v now :: c.cache).map Node.key).Nodup := by
    have hk : k ∉ c.cache.map Node.key := find_node_eq_none.mp hfind
    simpa using List.nodup_cons.mpr ⟨hk, wf_keys_nodup hwf⟩
  constructor
  · rw [put_of_new_evict hfind hgt]
    have h1 := length_erase_key_of_mem hmem
    simp only [List.length_cons] at h1 ⊢
    omega
  · intro h
    rw [put_of_new_evict hfind hgt]
    have hlast : (k :: c.order).getLast (List.cons_ne_nil k c.order) = c.order.getLast h :=
      List.getLast_cons h
    simp only []
    rw [← hlast]
    exact find_node_erase_self hnd2

theorem put_length_le {c : LRUCache K V} (now : Int) (k : K) (v : V)
    (hwf : c.Wf) (hlen : c.cache.length ≤ c.capacity) :
    (c.put now k v).cache.length ≤ c.capacity := by
  cases hfind : find_node k c.cache with
  | some n =>
    rw [put_of_found hfind]
    simpa [length_update_node] using hlen
  | none =>
    by_cases hc : c.cache.length + 1 ≤ c.capacity
    · rw [put_of_new_fits hfind hc]; simpa using hc
    · push_neg at hc
      have h1 := (put_evict_length now k v hwf hfind hc).1
      omega

theorem run_puts_wf_le (ops : List (Int × K × V)) (c : LRUCache K V)
    (hwf : c.Wf) (hlen : c.cache.length ≤ c.capacity) :
    (run_puts ops c).Wf ∧ (run_puts ops c).capacity = c.capacity
      ∧ (run_puts ops c).cache.length ≤ c.capacity := by
  induction ops generalizing c with
  | nil => exact ⟨hwf, rfl, hlen⟩
  | cons op rest ih =>
    obtain ⟨now, k, v⟩ := op
    have hc := (put_capacity_ttl c now k v).1
    have step := ih (c.put now k v) (wf_put now k v hwf)
      (hc ▸ put_length_le now k v hwf hlen)
    exact ⟨step.1, step.2.1.trans hc, hc ▸ step.2.2⟩

theorem is_expired_fresh {st : LRUCache K V} {now : Int} {n : Node K V}
    (hn : n.created_at = now) (httl : ∀ t, st.ttl_seconds = some t → 0 ≤ t) :
    st.is_expired now n = false := by
  cases h : st.ttl_seconds with
  | none => simp [LRUCache.is_expired, h]
  | some t =>
    have ht := httl t h
    simp only [LRUCache.is_expired, h, hn, gt_iff_lt, decide_eq_false_iff_not, not_lt]
    omega

/-! ### The claims -/

/-- C1: for every capacity N ≥ 1 and every sequence of `put` calls on a
single-shard cache constructed with capacity N, after each `put` returns
`len()` is at most N; and whenever inserting a new key makes the entry
count exceed the capacity, exactly one entry — the recency-list tail — is
evicted (the count returns to its previous value and the old tail key is
no longer indexed). -/
theorem C1_capacity_invariant (N : Nat) (ttl : Option Int)
    (ops : List (Int × K × V)) (hN : 1 ≤ N) :
    (∀ now, (run_puts ops (LRUCache.empty N ttl : LRUCache K V)).len now ≤ N)
    ∧ ∀ (c : LRUCache K V) (now : Int) (k : K) (v : V),
        c.Wf → c.capacity = N → find_node k c.cache = none →
          N < c.cache.length + 1 →
            (c.put now k v).cache.length = c.cache.length
            ∧ ∀ h : c.order ≠ [],
                find_node (c.order.getLast h) (c.put now k v).cache = none := by
  constructor
  · intro now
    have h0 : (LRUCache.empty N ttl : LRUCache K V).Wf :=
      ⟨List.nodup_nil, by simp [LRUCache.empty]⟩
    have hrun := run_puts_wf_le ops (LRUCache.empty N ttl) h0 (by simp [LRUCache.empty])
    exact (len_le_length _ now).trans hrun.2.2
  · intro c now k v hwf hcap hfind hgt
    exact put_evict_length now k v hwf hfind (by omega)

/-- Witness for C1: a two-put run on a capacity-1 cache stays within the
bound, and a concrete overflowing insert on a full capacity-1 shard keeps
the count at 1 while dropping the old tail key 5. -/
theorem C1_capacity_invariant_witness :
    ((run_puts [((0 : Int), (1 : Nat), (10 : Nat)), (1, 2, 20)]
        (LRUCache.empty 1 none)).len 5 ≤ 1)
    ∧ ((full_shard.put 0 7 70).cache.length = 1
        ∧ find_node 5 (full_shard.put 0 7 70).cache = none) := by
  refine ⟨(C1_capacity_invariant 1 none _ (by decide)).1 5, ?_⟩
  have h := (C1_capacity_invariant (K := Nat) (V := Nat) 1 none [] (by decide)).2
    full_shard 0 7 70 (by decide) rfl (by decide) (by decide)
  exact ⟨h.1, h.2 (by decide)⟩

/-- C2: on a fresh capacity-2 single-shard cache, the call sequence
`put(1,1); put(2,2); get(1); put(3,3)` evicts key 2 (least recently used
at overflow time, since `get(1)` moved key 1 to the head); afterwards
`get(2)` is absent, `get(3)` returns 3 and `get(1)` returns 1. -/
theorem C2_lru_order :
    let c0 : LRUCache Nat Nat := LRUCache.empty 2 none
    let c4 := ((((c0.put 0 1 1).put 1 2 2).get 2 1).2).put 3 3 3
    let r2 := c4.get 4 2
    let r3 := r2.2.get 5 3
    let r1 := r3.2.get 6 1
    r2.1 = none ∧ r3.1 = some 3 ∧ r1.1 = some 1 :=
  ⟨rfl, rfl, rfl⟩

/-- C5: `get` returns absent and changes nothing when the key is not
indexed; removes the entry from both index and recency list and returns
absent when the key is found but expired; and moves the entry to the
recency-list head and returns its value when the key is found live. -/
theorem C5_get_semantics (c : LRUCache K V) (now : Int) (k : K) :
    (find_node k c.cache = none → c.get now k = (none, c))
    ∧ (∀ n, find_node k c.cache = some n → c.is_expired now n = true →
        c.get now k
          = (none, { c with
                     cache := erase_key k c.cache,
                     order := c.order.erase k }))
    ∧ (∀ n, find_node k c.cache = some n → c.is_expired now n = false →
        c.get now k = (some n.value, { c with order := k :: c.order.erase k })) :=
  ⟨fun h => get_of_none h,
   fun _ h he => get_of_expired h he,
   fun _ h he => get_of_live h he⟩

/-- Witness for C5 on a concrete shard with TTL 10: key 3 is absent, key 1
is expired at time 20 and gets removed, key 2 is live at time 5 and moves
to the head. -/
theorem C5_get_semantics_witness :
    (sample_shard.get 20 3 = (none, sample_shard))
    ∧ (sample_shard.get 20 1
        = (none, { sample_shard with
                   cache := erase_key 1 sample_shard.cache,
                   order := sample_shard.order.erase 1 }))
    ∧ (sample_shard.get 5 2
        = (some 22, { sample_shard with order := 2 :: sample_shard.order.erase 2 })) :=
  ⟨(C5_get_semantics sample_shard 20 3).1 (by decide),
   (C5_get_semantics sample_shard 20 1).2.1 ⟨1, 11, 0⟩ (by decide) (by decide),
   (C5_get_semantics sample_shard 5 2).2.2 ⟨2, 22, 0⟩ (by decide) (by decide)⟩

/-- C6: `put` on a key that is already present overwrites the stored
value, resets the entry's timestamp to the current time, moves the entry
to the recency-list head, and neither inserts nor evicts: the entry count
is unchanged and every other key's entry is untouched. -/
theorem C6_put_overwrite (c : LRUCache K V) (now : Int) (k : K) (v : V)
    (n : Node K V) (h : find_node k c.cache = some n) :
    c.put now k v
      = { c with cache := update_node k v now c.cache, order := k :: c.order.erase k }
    ∧ find_node k (c.put now k v).cache = some { n with value := v, created_at := now }
    ∧ (c.put now k v).cache.length = c.cache.length
    ∧ ∀ k2, k2 ≠ k → find_node k2 (c.put now k v).cache = find_node k2 c.cache := by
  have hput := @put_of_found K V _ c now k v n h
  refine ⟨hput, ?_, ?_, ?_⟩
  · rw [hput]
    show find_node k (update_node k v now c.cache) = _
    rw [find_node_update_self, h]
    rfl
  · rw [hput]
    exact length_update_node k v now c.cache
  · intro k2 hk2
    rw [hput]
    exact find_node_update_ne v now c.cache hk2

/-- Witness for C6: overwriting key 1 of the sample shard at time 7 with
value 99 refreshes its timestamp to 7, moves it to the head, keeps the
count at 2 and leaves key 2's entry untouched. -/
theorem C6_put_overwrite_witness :
    sample_shard.put 7 1 99
      = { sample_shard with
          cache := update_node 1 99 7 sample_shard.cache,
          order := 1 :: sample_shard.order.erase 1 }
    ∧ find_node 1 (sample_shard.put 7 1 99).cache = some ⟨1, 99, 7⟩
    ∧ (sample_shard.put 7 1 99).cache.length = sample_shard.cache.length
    ∧ find_node 2 (sample_shard.put 7 1 99).cache = find_node 2 sample_shard.cache := by
  have h := C6_put_overwrite sample_shard 7 1 99 ⟨1, 11, 0⟩ (by decide)
  exact ⟨h.1, h.2.1, h.2.2.1, h.2.2.2 2 (by decide)⟩

/-- C7: every public operation preserves the bijection between the hash
index and the recency list (`get`, `put` and `clear` re-establish it,
`contains` leaves the whole state unchanged; `len` is a pure count and has
no state to alter). -/
theorem C7_bijection_preserved (c : LRUCache K V) (now : Int) (k : K) (v : V)
    (hwf : c.Wf) :
    ((c.get now k).2).Wf ∧ (c.put now k v).Wf ∧ ((c.contains now k).2).Wf
      ∧ c.clear.Wf ∧ (c.contains now k).2 = c := by
  refine ⟨wf_get now k hwf, wf_put now k v hwf, ?_, wf_clear c, contains_snd c now k⟩
  rw [contains_snd]
  exact hwf

/-- Witness for C7 on the sample shard. -/
theorem C7_bijection_preserved_witness :
    ((sample_shard.get 5 1).2).Wf ∧ (sample_shard.put 5 1 33).Wf
      ∧ ((sample_shard.contains 5 1).2).Wf ∧ sample_shard.clear.Wf
      ∧ (sample_shard.contains 5 1).2 = sample_shard :=
  C7_bijection_preserved sample_shard 5 1 33 (by decide)

/-- C9: `contains` returns true exactly when the key is indexed and
unexpired, and it leaves the entire cache state unchanged — no recency
reordering, no removal of an expired entry it may encounter. -/
theorem C9_contains_frame (c : LRUCache K V) (now : Int) (k : K) :
    ((c.contains now k).1 = true
      ↔ ∃ n, find_node k c.cache = some n ∧ c.is_expired now n = false)
    ∧ (c.contains now k).2 = c := by
  refine ⟨?_, contains_snd c now k⟩
  cases hfind : find_node k c.cache with
  | none => simp [LRUCache.contains, hfind]
  | some n => simp [LRUCache.contains, hfind]

/-- C10: immediately after `put k v` (same clock reading, non-negative
TTL), `get k` returns `v`; in particular an overflowing insert never
evicts the entry just inserted, because the tail key chosen for eviction
differs from the new key. -/
theorem C10_put_get_round_trip (c : LRUCache K V) (now : Int) (k : K) (v : V)
    (hwf : c.Wf) (hcap : 1 ≤ c.capacity)
    (httl : ∀ t, c.ttl_seconds = some t → 0 ≤ t) :
    ((c.put now k v).get now k).1 = some v
    ∧ (find_node k c.cache = none → c.capacity < c.cache.length + 1 →
        ∀ h : c.order ≠ [], c.order.getLast h ≠ k) := by
  constructor
  · cases hfind : find_node k c.cache with
    | some n =>
      rw [put_of_found hfind]
      have hfind2 : find_node k (update_node k v now c.cache)
          = some { n with value := v, created_at := now } := by
        rw [find_node_update_self, hfind]; rfl
      rw [get_of_live
        (c := { c with cache := update_node k v now c.cache, order := k :: c.order.erase k })
        hfind2 (is_expired_fresh rfl httl)]
    | none =>
      by_cases hc : c.cache.length + 1 ≤ c.capacity
      · rw [put_of_new_fits hfind hc]
        have hfind2 : find_node k (Node.mk k v now :: c.cache) = some (Node.mk k v now) := by
          simp [find_node]
        rw [get_of_live
          (c := { c with cache := Node.mk k v now :: c.cache, order := k :: c.order })
          hfind2 (is_expired_fresh rfl httl)]
      · push_neg at hc
        rw [put_of_new_evict hfind hc]
        have hord : c.order ≠ [] := by
          intro h0
          have hnil : c.cache.map Node.key = [] := (h0 ▸ hwf.2).eq_nil
          have : c.cache.length = 0 := by simpa using congrArg List.length hnil
          omega
        have hkO : k ∉ c.order := wf_not_mem_order_of_none hwf hfind
        have hkj : k ≠ (k :: c.order).getLast (List.cons_ne_nil k c.order) := by
          rw [List.getLast_cons hord]
          intro he
          exact hkO (he ▸ List.getLast_mem hord)
        have hfind2 : find_node k
            (erase_key ((k :: c.order).getLast (List.cons_ne_nil k c.order))
              (Node.mk k v now :: c.cache)) = some (Node.mk k v now) := by
          rw [find_node_erase_ne _ hkj]
          simp [find_node]
        rw [get_of_live
          (c := { c with
                  cache := erase_key ((k :: c.order).getLast (List.cons_ne_nil k c.order))
                             (Node.mk k v now :: c.cache),
                  order := (k :: c.order).dropLast })
          hfind2 (is_expired_fresh rfl httl)]
  · intro hfind hgt h
    intro he
    exact (wf_not_mem_order_of_none hwf hfind) (he ▸ List.getLast_mem h)

/-- Witness for C10: inserting key 6 into the full capacity-1 shard (the
eviction path) still round-trips: the immediate `get 6` returns 60, and
the shard's tail key 5 (the one evicted) differs from 6. -/
theorem C10_put_get_round_trip_witness :
    ((full_shard.put 1 6 60).get 1 6).1 = some 60
    ∧ full_shard.order.getLast (by decide) ≠ 6 := by
  have h := C10_put_get_round_trip full_shard 1 6 60 (by decide) (by decide)
    (fun t ht => nomatch ht)
  exact ⟨h.1, h.2 (by decide) (by decide) (by decide)⟩

/-! ### Facts about the capacity distribution -/

theorem sum_base (q r : Nat) : ∀ n : Nat,
    ((List.range n).map (fun i => q + if i < r then 1 else 0)).sum = n * q + min r n := by
  intro n
  induction n with
  | zero => simp
  | succ m ih =>
    rw [List.range_succ, List.map_append, List.sum_append, ih]
    simp only [List.map_cons, List.map_nil, List.sum_cons, List.sum_nil]
    rw [Nat.succ_mul]
    by_cases h : m < r
    · rw [if_pos h]; omega
    · rw [if_neg h]; omega

theorem sum_shard_capacity_lower (cap n : Nat) :
    n * (cap / n) + min (cap % n) n
      ≤ ((List.range n).map (shard_capacity cap n)).sum := by
  rw [← sum_base (cap / n) (cap % n) n]
  refine List.sum_le_sum fun i _ => ?_
  exact le_max_right 1 _

theorem sum_shard_capacity_eq (cap n : Nat) (hq : 1 ≤ cap / n) :
    ((List.range n).map (shard_capacity cap n)).sum = n * (cap / n) + min (cap % n) n := by
  rw [← sum_base (cap / n) (cap % n) n]
  congr 1
  refine List.map_congr_left fun i _ => ?_
  simp only [shard_capacity]
  split <;> omega

theorem cap_le_sum_shard_capacity (cap n : Nat) (hn : 1 ≤ n) :
    cap ≤ ((List.range n).map (shard_capacity cap n)).sum := by
  have h1 := sum_shard_capacity_lower cap n
  have h2 : cap % n < n := Nat.mod_lt cap hn
  have h3 := Nat.div_add_mod cap n
  omega

theorem sum_shard_capacity_of_dvd (cap n : Nat) (hn : 1 ≤ n) (hcap : 1 ≤ cap)
    (hdvd : n ∣ cap) : ((List.range n).map (shard_capacity cap n)).sum = cap := by
  have hq : 1 ≤ cap / n := (Nat.one_le_div_iff hn).mpr (Nat.le_of_dvd hcap hdvd)
  rw [sum_shard_capacity_eq cap n hq]
  have h2 : cap % n = 0 := Nat.mod_eq_zero_of_dvd hdvd
  have h3 := Nat.div_add_mod cap n
  omega

theorem ttl_invalid_iff (ttl : Option Int) :
    ttl_invalid ttl = true ↔ ∃ t, ttl = some t ∧ t < 0 := by
  cases ttl <;> simp [ttl_invalid]

theorem ttl_invalid_eq_false {ttl : Option Int}
    (httl : ∀ t, ttl = some t → 0 ≤ t) : ttl_invalid ttl = false := by
  cases h : ttl with
  | none => rfl
  | some t =>
    have := httl t h
    simp only [ttl_invalid, decide_eq_false_iff_not, not_lt]
    omega

theorem cache_init_ok (hashf : K → Nat) (capacity : Int) (ttl : Option Int)
    (num_shards : Int) (hcap : 0 < capacity)
    (httl : ttl_invalid ttl = false) (hn : 0 < num_shards) :
    Cache.init (K := K) (V := V) hashf capacity ttl num_shards
      = .ok { capacity := capacity, ttl_seconds := ttl, hashf := hashf,
              shards := (List.range num_shards.toNat).map fun i =>
                { shard := LRUCache.empty
                    (shard_capacity capacity.toNat num_shards.toNat i) ttl,
                  hits := 0, misses := 0 } } := by
  rw [Cache.init, if_neg (by omega), if_neg (by simp [httl]), if_neg (by omega)]

/-- C3: the facade constructor accepts a positive `num_shards` (16 by
default), builds that many shards, and gives shard `i` the capacity
`max 1 (⌊capacity/num_shards⌋ + (1 if i < capacity mod num_shards else 0))`;
every shard capacity is at least 1, the capacities sum to at least the
configured total, and to exactly the total when `num_shards` divides it. -/
theorem C3_capacity_distribution (hashf : K → Nat) (capacity : Int)
    (ttl : Option Int) (num_shards : Int)
    (hcap : 1 ≤ capacity) (httl : ∀ t, ttl = some t → 0 ≤ t)
    (hn : 1 ≤ num_shards) :
    ∃ c : Cache K V, Cache.init hashf capacity ttl num_shards = .ok c
      ∧ c.shards.length = num_shards.toNat
      ∧ (∀ i (hi : i < c.shards.length),
          (c.shards.get ⟨i, hi⟩).shard.capacity
              = shard_capacity capacity.toNat num_shards.toNat i
          ∧ 1 ≤ (c.shards.get ⟨i, hi⟩).shard.capacity)
      ∧ capacity.toNat ≤ (c.shards.map (fun s => s.shard.capacity)).sum
      ∧ (num_shards.toNat ∣ capacity.toNat →
          (c.shards.map (fun s => s.shard.capacity)).sum = capacity.toNat)
      ∧ Cache.init_default (K := K) (V := V) hashf capacity ttl
          = Cache.init hashf capacity ttl 16 := by
  refine ⟨_, cache_init_ok hashf capacity ttl num_shards (by omega)
    (ttl_invalid_eq_false httl) (by omega), ?_, ?_, ?_, ?_, rfl⟩
  · simp
  · intro i hi
    simp only [List.get_eq_getElem, List.getElem_map]
    simp only [List.length_map, List.length_range] at hi
    rw [List.getElem_range]
    exact ⟨rfl, le_max_left 1 _⟩
  · rw [List.map_map]
    have hmap : ((fun s : StatShard K V => s.shard.capacity) ∘ fun i =>
        ({ shard := LRUCache.empty
            (shard_capacity capacity.toNat num_shards.toNat i) ttl,
           hits := 0, misses := 0 } : StatShard K V))
        = shard_capacity capacity.toNat num_shards.toNat := rfl
    rw [hmap]
    exact cap_le_sum_shard_capacity capacity.toNat num_shards.toNat (by omega)
  · intro hdvd
    rw [List.map_map]
    have hmap : ((fun s : StatShard K V => s.shard.capacity) ∘ fun i =>
        ({ shard := LRUCache.empty
            (shard_capacity capacity.toNat num_shards.toNat i) ttl,
           hits := 0, misses := 0 } : StatShard K V))
        = shard_capacity capacity.toNat num_shards.toNat := rfl
    rw [hmap]
    exact sum_shard_capacity_of_dvd capacity.toNat num_shards.toNat
      (by omega) (by omega) hdvd

/-- Witness for C3 at capacity 5, TTL 3, 2 shards. -/
theorem C3_capacity_distribution_witness :
    ∃ c : Cache Nat Nat, Cache.init (fun n => n) 5 (some 3) 2 = .ok c
      ∧ c.shards.length = (2 : Int).toNat
      ∧ (∀ i (hi : i < c.shards.length),
          (c.shards.get ⟨i, hi⟩).shard.capacity = shard_capacity (5 : Int).toNat (2 : Int).toNat i
          ∧ 1 ≤ (c.shards.get ⟨i, hi⟩).shard.capacity)
      ∧ (5 : Int).toNat ≤ (c.shards.map (fun s => s.shard.capacity)).sum
      ∧ ((2 : Int).toNat ∣ (5 : Int).toNat →
          (c.shards.map (fun s => s.shard.capacity)).sum = (5 : Int).toNat)
      ∧ Cache.init_default (K := Nat) (V := Nat) (fun n => n) 5 (some 3)
          = Cache.init (fun n => n) 5 (some 3) 16 :=
  C3_capacity_distribution (fun n => n) 5 (some 3) 2 (by decide)
    (fun t ht => by cases ht; decide) (by decide)

/-! ### Facts about shard updates and aggregated statistics -/

theorem set_getElem_self {α : Type} :
    ∀ (l : List α) (i : Nat) (a : α), l[i]? = some a → l.set i a = l
  | [], i, a, h => by simp at h
  | x :: xs, 0, a, h => by
    simp only [List.getElem?_cons_zero, Option.some.injEq] at h
    simp [List.set, h]
  | x :: xs, m + 1, a, h => by
    simp only [List.getElem?_cons_succ] at h
    simp [List.set, set_getElem_self xs m a h]

theorem sum_map_set {α : Type} (f : α → Nat) :
    ∀ (l : List α) (i : Nat) (a : α) (h : i < l.length),
      ((l.set i a).map f).sum + f (l.get ⟨i, h⟩) = (l.map f).sum + f a
  | [], i, a, h => by simp at h
  | x :: xs, 0, a, h => by
    simp only [List.set, List.map_cons, List.sum_cons, List.get]
    omega
  | x :: xs, m + 1, a, h => by
    simp only [List.set, List.map_cons, List.sum_cons, List.get]
    have := sum_map_set f xs m a (by simpa using h)
    omega

theorem statshard_get_none {s : StatShard K V} {now : Int} {k : K}
    (hfind : find_node k s.shard.cache = none) :
    s.get now k = (none, { shard := s.shard, hits := s.hits, misses := s.misses + 1 }) := by
  simp [StatShard.get, get_of_none hfind]

theorem statshard_get_live {s : StatShard K V} {now : Int} {k : K} {n : Node K V}
    (hfind : find_node k s.shard.cache = some n)
    (hexp : s.shard.is_expired now n = false) :
    s.get now k
      = (some n.value,
         { shard := { s.shard with order := k :: s.shard.order.erase k },
           hits := s.hits + 1, misses := s.misses }) := by
  simp [StatShard.get, get_of_live hfind hexp]

theorem statshard_contains_snd (s : StatShard K V) (now : Int) (k : K) :
    (s.contains now k).2 = s := by
  simp [StatShard.contains, contains_snd]

theorem cache_contains_snd (c : Cache K V) (now : Int) (k : K) :
    (c.contains now k).2 = c := by
  rw [Cache.contains]
  cases hs : c.shards[c.shard_index k]? with
  | none => rfl
  | some s =>
    simp only [statshard_contains_snd]
    rw [set_getElem_self _ _ _ hs]

theorem cache_clear_stats (c : Cache K V) :
    c.clear.hits = 0 ∧ c.clear.misses = 0 := by
  constructor
  · refine List.sum_eq_zero fun x hx => ?_
    simp only [Cache.clear, List.map_map, List.mem_map] at hx
    obtain ⟨s, -, hs⟩ := hx
    exact hs ▸ rfl
  · refine List.sum_eq_zero fun x hx => ?_
    simp only [Cache.clear, List.map_map, List.mem_map] at hx
    obtain ⟨s, -, hs⟩ := hx
    exact hs ▸ rfl

theorem cache_put_stats (c : Cache K V) (now : Int) (k : K) (v : V) :
    (c.put now k v).hits = c.hits ∧ (c.put now k v).misses = c.misses := by
  rw [Cache.put]
  cases hs : c.shards[c.shard_index k]? with
  | none => exact ⟨rfl, rfl⟩
  | some s =>
    obtain ⟨hi, hget⟩ := List.getElem?_eq_some.mp hs
    constructor
    · have h1 := sum_map_set StatShard.hits c.shards (c.shard_index k) (s.put now k v) hi
      simp only [List.get_eq_getElem, hget] at h1
      have h2 : (s.put now k v).hits = s.hits := rfl
      simp only [Cache.hits]
      omega
    · have h1 := sum_map_set StatShard.misses c.shards (c.shard_index k) (s.put now k v) hi
      simp only [List.get_eq_getElem, hget] at h1
      have h2 : (s.put now k v).misses = s.misses := rfl
      simp only [Cache.misses]
      omega

theorem cache_get_miss (c : Cache K V) (now : Int) (k : K)
    (hi : c.shard_index k < c.shards.length)
    (hfind : find_node k (c.shards.get ⟨c.shard_index k, hi⟩).shard.cache = none) :
    (c.get now k).2.misses = c.misses + 1 ∧ (c.get now k).2.hits = c.hits := by
  have hget : c.shards[c.shard_index k]? = some (c.shards.get ⟨c.shard_index k, hi⟩) := by
    rw [List.getElem?_eq_getElem hi]; rfl
  simp only [Cache.get, hget, statshard_get_none hfind]
  constructor
  · have h1 := sum_map_set StatShard.misses c.shards (c.shard_index k)
      { shard := (c.shards.get ⟨c.shard_index k, hi⟩).shard,
        hits := (c.shards.get ⟨c.shard_index k, hi⟩).hits,
        misses := (c.shards.get ⟨c.shard_index k, hi⟩).misses + 1 } hi
    simp only [Cache.misses]
    dsimp only at h1 ⊢
    omega
  · have h1 := sum_map_set StatShard.hits c.shards (c.shard_index k)
      { shard := (c.shards.get ⟨c.shard_index k, hi⟩).shard,
        hits := (c.shards.get ⟨c.shard_index k, hi⟩).hits,
        misses := (c.shards.get ⟨c.shard_index k, hi⟩).misses + 1 } hi
    simp only [Cache.hits]
    dsimp only at h1 ⊢
    omega

theorem cache_get_hit (c : Cache K V) (now : Int) (k : K) {n : Node K V}
    (hi : c.shard_index k < c.shards.length)
    (hfind : find_node k (c.shards.get ⟨c.shard_index k, hi⟩).shard.cache = some n)
    (hexp : (c.shards.get ⟨c.shard_index k, hi⟩).shard.is_expired now n = false) :
    (c.get now k).2.hits = c.hits + 1 ∧ (c.get now k).2.misses = c.misses := by
  have hget : c.shards[c.shard_index k]? = some (c.shards.get ⟨c.shard_index k, hi⟩) := by
    rw [List.getElem?_eq_getElem hi]; rfl
  simp only [Cache.get, hget, statshard_get_live hfind hexp]
  constructor
  · have h1 := sum_map_set StatShard.hits c.shards (c.shard_index k)
      { shard := { (c.shards.get ⟨c.shard_index k, hi⟩).shard with
                   order := k :: (c.shards.get ⟨c.shard_index k, hi⟩).shard.order.erase k },
        hits := (c.shards.get ⟨c.shard_index k, hi⟩).hits + 1,
        misses := (c.shards.get ⟨c.shard_index k, hi⟩).misses } hi
    simp only [Cache.hits]
    dsimp only at h1 ⊢
    omega
  · have h1 := sum_map_set StatShard.misses c.shards (c.shard_index k)
      { shard := { (c.shards.get ⟨c.shard_index k, hi⟩).shard with
                   order := k :: (c.shards.get ⟨c.shard_index k, hi⟩).shard.order.erase k },
        hits := (c.shards.get ⟨c.shard_index k, hi⟩).hits + 1,
        misses := (c.shards.get ⟨c.shard_index k, hi⟩).misses } hi
    simp only [Cache.misses]
    dsimp only at h1 ⊢
    omega

theorem len_empty (capacity : Nat) (ttl : Option Int) (now : Int) :
    (LRUCache.empty (K := K) (V := V) capacity ttl).len now = 0 := by
  cases ttl <;> simp [LRUCache.len, LRUCache.empty]

/-- C4: the facade keeps hit/miss counters readable through `hits`/`misses`:
a `get` on a key absent from its routed shard adds exactly 1 to `misses`
and leaves `hits` unchanged; a `get` on a present, unexpired key adds
exactly 1 to `hits` and leaves `misses` unchanged; `clear()` resets both
aggregates to 0; `put` changes neither, and `contains` leaves the whole
cache state unchanged (`len` reads no counter and returns only a number). -/
theorem C4_statistics (c : Cache K V) (now : Int) (k : K) (v : V) :
    (∀ hi : c.shard_index k < c.shards.length,
        find_node k (c.shards.get ⟨c.shard_index k, hi⟩).shard.cache = none →
          (c.get now k).2.misses = c.misses + 1 ∧ (c.get now k).2.hits = c.hits)
    ∧ (∀ (hi : c.shard_index k < c.shards.length) (n : Node K V),
        find_node k (c.shards.get ⟨c.shard_index k, hi⟩).shard.cache = some n →
        (c.shards.get ⟨c.shard_index k, hi⟩).shard.is_expired now n = false →
          (c.get now k).2.hits = c.hits + 1 ∧ (c.get now k).2.misses = c.misses)
    ∧ (c.clear.hits = 0 ∧ c.clear.misses = 0)
    ∧ ((c.put now k v).hits = c.hits ∧ (c.put now k v).misses = c.misses)
    ∧ (c.contains now k).2 = c :=
  ⟨fun hi hfind => cache_get_miss c now k hi hfind,
   fun hi _ hfind hexp => cache_get_hit c now k hi hfind hexp,
   cache_clear_stats c,
   cache_put_stats c now k v,
   cache_contains_snd c now k⟩

/-- Witness for C4 on the concrete two-shard cache: key 4 routes to shard
0 and misses, key 1 routes to shard 1 and hits at time 5. -/
theorem C4_statistics_witness :
    ((sample_cache.get 5 4).2.misses = sample_cache.misses + 1
      ∧ (sample_cache.get 5 4).2.hits = sample_cache.hits)
    ∧ ((sample_cache.get 5 1).2.hits = sample_cache.hits + 1
      ∧ (sample_cache.get 5 1).2.misses = sample_cache.misses)
    ∧ (sample_cache.clear.hits = 0 ∧ sample_cache.clear.misses = 0)
    ∧ ((sample_cache.put 5 4 44).hits = sample_cache.hits
      ∧ (sample_cache.put 5 4 44).misses = sample_cache.misses)
    ∧ (sample_cache.contains 5 1).2 = sample_cache := by
  have h4 := C4_statistics sample_cache 5 4 44
  have h1 := C4_statistics sample_cache 5 1 11
  exact ⟨h4.1 (by decide) (by decide),
         h1.2.1 (by decide) ⟨1, 11, 0⟩ (by decide) (by decide),
         h4.2.2.1, h4.2.2.2.1, h1.2.2.2.2⟩

/-- C8: facade construction fails with `InvalidConfiguration` exactly when
capacity ≤ 0, a configured TTL is negative, or num_shards ≤ 0; on failure
no cache is produced, and on success the cache is fully initialized: the
accessors report the configured capacity and TTL, there are `num_shards`
shards, every shard is empty with zeroed counters, and the total length
is 0. -/
theorem C8_invalid_configuration (hashf : K → Nat) (capacity : Int)
    (ttl : Option Int) (num_shards : Int) :
    ((∃ e, Cache.init (K := K) (V := V) hashf capacity ttl num_shards = .error e)
      ↔ (capacity ≤ 0 ∨ (∃ t, ttl = some t ∧ t < 0) ∨ num_shards ≤ 0))
    ∧ ∀ c : Cache K V, Cache.init hashf capacity ttl num_shards = .ok c →
        c.capacity = capacity ∧ c.ttl_seconds = ttl
        ∧ c.shards.length = num_shards.toNat
        ∧ (∀ s ∈ c.shards, s.shard.cache = [] ∧ s.shard.order = []
            ∧ s.hits = 0 ∧ s.misses = 0)
        ∧ (∀ now, c.len now = 0) := by
  by_cases h1 : capacity ≤ 0
  · refine ⟨⟨fun _ => Or.inl h1, fun _ => ⟨_, by rw [Cache.init, if_pos h1]⟩⟩, ?_⟩
    intro c hc
    rw [Cache.init, if_pos h1] at hc
    exact Except.noConfusion hc
  · by_cases h2 : ttl_invalid ttl = true
    · refine ⟨⟨fun _ => Or.inr (Or.inl ((ttl_invalid_iff ttl).mp h2)),
        fun _ => ⟨_, by rw [Cache.init, if_neg h1, if_pos h2]⟩⟩, ?_⟩
      intro c hc
      rw [Cache.init, if_neg h1, if_pos h2] at hc
      exact Except.noConfusion hc
    · by_cases h3 : num_shards ≤ 0
      · refine ⟨⟨fun _ => Or.inr (Or.inr h3),
          fun _ => ⟨_, by rw [Cache.init, if_neg h1, if_neg h2, if_pos h3]⟩⟩, ?_⟩
        intro c hc
        rw [Cache.init, if_neg h1, if_neg h2, if_pos h3] at hc
        exact Except.noConfusion hc
      · have hok := cache_init_ok (K := K) (V := V) hashf capacity ttl num_shards
          (by omega) (by simpa using h2) (by omega)
        constructor
        · constructor
          · rintro ⟨e, he⟩
            rw [hok] at he
            exact Except.noConfusion he
          · rintro (h | ⟨t, ht, hlt⟩ | h)
            · exact absurd h h1
            · exact absurd ((ttl_invalid_iff ttl).mpr ⟨t, ht, hlt⟩) h2
            · exact absurd h h3
        · intro c hc
          rw [hok] at hc
          injection hc with hc2
          subst hc2
          refine ⟨rfl, rfl, by simp, ?_, ?_⟩
          · intro s hs
            simp only [List.mem_map] at hs
            obtain ⟨i, -, rfl⟩ := hs
            exact ⟨rfl, rfl, rfl, rfl⟩
          · intro now2
            rw [Cache.len]
            refine List.sum_eq_zero fun x hx => ?_
            simp only [List.map_map, List.mem_map, Function.comp] at hx
            obtain ⟨i, -, rfl⟩ := hx
            exact len_empty _ _ _

/-- Witness for C8: capacity 0 is rejected, and the concrete successful
construction with capacity 5, TTL 3 and 2 shards is fully initialized. -/
theorem C8_invalid_configuration_witness :
    (∃ e, Cache.init (K := Nat) (V := Nat) (fun n => n) 0 none 16 = .error e)
    ∧ sample_ok_cache.capacity = 5
    ∧ sample_ok_cache.ttl_seconds = some 3
    ∧ sample_ok_cache.shards.length = 2
    ∧ sample_ok_cache.len 0 = 0 := by
  have hok := (C8_invalid_configuration (fun n => n) 5 (some 3) 2).2
    sample_ok_cache rfl
  exact ⟨(C8_invalid_configuration (fun n => n) 0 none 16).1.mpr (Or.inl (by decide)),
         hok.1, hok.2.1, hok.2.2.1, hok.2.2.2.2 0⟩
